import Mathlib

/-!
Verification of the diagnostic-to-edit core of the Google-C++-style VS Code
extension (files src/src/extension.ts and the second extension variant in
src/unnamed/part_000).

Modelling conventions:
* A JavaScript string is a sequence of UTF-16 code units; we model it as
  List Nat (code unit values), written JsString.  Literals are entered with
  the helper function strL, which converts a Lean string to its code units;
  characters such as the newline (10) or the quote (39) are spliced in as
  explicit numbers so that every code unit is visible.
* Case conversions (toLowerCase, toUpperCase) are modelled on the ASCII
  range, which is the range exercised by every identifier and header name
  the extension manipulates.
* The regular expressions of the source are small fixed grammars; each one
  is translated into an executable recursive function whose backtracking
  behaviour follows the JavaScript regex engine on the constructs used
  (greedy character classes, lazy dot, anchored suffixes).
-/

/-- Code-unit strings: the model of a JavaScript string. -/
abbrev JsString := List Nat

/-- Conversion of a Lean string literal to its list of code units. -/
def strL (s : String) : JsString := s.toList.map Char.toNat

/-- ASCII uppercase letter test, the JS regex class [A-Z]. -/
def isUpperN (n : Nat) : Bool := 65 ≤ n && n ≤ 90

/-- ASCII lowercase letter test, the JS regex class [a-z]. -/
def isLowerAlpha (n : Nat) : Bool := 97 ≤ n && n ≤ 122

/-- The JS regex class [a-z0-9] used by the first snake-case rewrite. -/
def isSnakeLow (n : Nat) : Bool := (97 ≤ n && n ≤ 122) || (48 ≤ n && n ≤ 57)

/-- ASCII decimal digit test, the JS regex class [0-9]. -/
def isDigitN (n : Nat) : Bool := 48 ≤ n && n ≤ 57

/-- Whitespace recognised by the JS regex class backslash-s (ASCII part):
space, tab, newline, vertical tab, form feed, carriage return. -/
def isJsWs (n : Nat) : Bool := n = 32 || n = 9 || n = 10 || n = 11 || n = 12 || n = 13

/-- Character class of the rewrite that collapses whitespace and hyphens. -/
def isWsH (n : Nat) : Bool := isJsWs n || n = 45

/-- ASCII model of String.prototype.toLowerCase on one code unit. -/
def lowerN (n : Nat) : Nat := if 65 ≤ n ∧ n ≤ 90 then n + 32 else n

/-- ASCII model of String.prototype.toUpperCase on one code unit. -/
def upperN (n : Nat) : Nat := if 97 ≤ n ∧ n ≤ 122 then n - 32 else n

/-- Separator class of toPascalCase's split regex [_ whitespace -]+:
underscore, whitespace or hyphen. -/
def isSep (n : Nat) : Bool := n = 95 || isWsH n

/-- First rewrite of toLowerSnake: the global regex replace that inserts an
underscore between a lowercase-or-digit unit and a following uppercase
letter; the engine resumes scanning after the two consumed units. -/
def ins1 : JsString → JsString
  | a :: b :: rest =>
    if isSnakeLow a && isUpperN b then a :: 95 :: b :: ins1 rest
    else a :: ins1 (b :: rest)
  | l => l

/-- Second rewrite of toLowerSnake: the global replace inserting an
underscore between an uppercase letter and an uppercase-then-lowercase
pair; the engine resumes after the three consumed units. -/
def ins2 : JsString → JsString
  | a :: b :: c :: rest =>
    if isUpperN a && isUpperN b && isLowerAlpha c then a :: 95 :: b :: c :: ins2 rest
    else a :: ins2 (b :: c :: rest)
  | l => l

/-- Third rewrite of toLowerSnake, run state threaded explicitly: each
maximal run of whitespace or hyphens becomes a single underscore (the
flag records that the current unit continues a run already replaced). -/
def collapseWsAux (inRun : Bool) : JsString → JsString
  | [] => []
  | c :: rest =>
    if isWsH c then
      if inRun then collapseWsAux true rest else 95 :: collapseWsAux true rest
    else c :: collapseWsAux false rest

/-- Third rewrite of toLowerSnake at the start of the text. -/
def collapseWs (l : JsString) : JsString := collapseWsAux false l

/-- Fourth rewrite of toLowerSnake, run state threaded explicitly: each
maximal run of underscores becomes a single underscore (the source regex
replaces runs of two or more, which has the same effect). -/
def collapseUndAux (inRun : Bool) : JsString → JsString
  | [] => []
  | c :: rest =>
    if c = 95 then
      if inRun then collapseUndAux true rest else 95 :: collapseUndAux true rest
    else c :: collapseUndAux false rest

/-- Fourth rewrite of toLowerSnake at the start of the text. -/
def collapseUnd (l : JsString) : JsString := collapseUndAux false l

/-- The toLowerSnake function of the source: the two underscore-inserting
rewrites, then whitespace/hyphen collapsing, underscore collapsing, and a
final toLowerCase. -/
def toLowerSnake (s : JsString) : JsString :=
  (collapseUnd (collapseWs (ins2 (ins1 s)))).map lowerN

/-- Splitting on the separator class with empty segments dropped, the
current segment threaded as an accumulator: the source's s.split over the
class [_ whitespace -]+ followed by filter(Boolean). -/
def splitSegsAux (cur : JsString) : JsString → List JsString
  | [] => if cur = [] then [] else [cur]
  | c :: rest =>
    if isSep c then
      if cur = [] then splitSegsAux [] rest else cur :: splitSegsAux [] rest
    else splitSegsAux (cur ++ [c]) rest

/-- Splitting on the separator class starting with an empty segment. -/
def splitSegs (l : JsString) : List JsString := splitSegsAux [] l

/-- Per-segment transform of toPascalCase: uppercase the first unit and
lowercase the remainder, exactly charAt(0).toUpperCase() + slice(1).toLowerCase(). -/
def capWord : JsString → JsString
  | [] => []
  | c :: rest => upperN c :: rest.map lowerN

/-- The toPascalCase function of the source: split on separators, drop
empty segments, capitalize each segment, concatenate. -/
def toPascalCase (s : JsString) : JsString :=
  ((splitSegs s).map capWord).flatten

/-- The toLowerCamelFromSnake function of the source: the Pascal form with
its first unit lowercased. -/
def toLowerCamelFromSnake (s : JsString) : JsString :=
  match toPascalCase s with
  | [] => []
  | c :: rest => lowerN c :: rest

/-- Substring containment, String.prototype.includes of JavaScript. -/
def jsIncludes (hay needle : JsString) : Bool :=
  match hay with
  | [] => needle.isEmpty
  | c :: rest => needle.isPrefixOf (c :: rest) || jsIncludes rest needle

/-- The inferTargetName function of the source: ordered substring checks
on the lowercased kind select the case conversion applied to the
snake-normalized current name; unknown kinds yield none (null). -/
def inferTargetName (kind current : JsString) : Option JsString :=
  let k := kind.map lowerN
  let baseSnake := toLowerSnake current
  if jsIncludes k (strL "struct") || jsIncludes k (strL "class") || jsIncludes k (strL "type") then
    some (toPascalCase baseSnake)
  else if jsIncludes k (strL "enum constant") || jsIncludes k (strL "global constant")
      || jsIncludes k (strL "static constant") || jsIncludes k (strL "constant") then
    let pascal := toPascalCase baseSnake
    some (if pascal.length > 0 then 107 :: (pascal.take 1 ++ pascal.drop 1) else [107])
  else if jsIncludes k (strL "function") || jsIncludes k (strL "method") then
    some (toPascalCase baseSnake)
  else if jsIncludes k (strL "variable") || jsIncludes k (strL "parameter")
      || jsIncludes k (strL "private member") || jsIncludes k (strL "protected member")
      || jsIncludes k (strL "global variable") || jsIncludes k (strL "namespace") then
    some baseSnake
  else
    none

/-- Policy function written from the specification text of the claim: the
same ordered checks with the constant family expressed as the single
substring "constant" (every constant kind phrase contains it). -/
def inferTargetNameSpec (kind current : JsString) : Option JsString :=
  let k := kind.map lowerN
  let baseSnake := toLowerSnake current
  if jsIncludes k (strL "struct") || jsIncludes k (strL "class") || jsIncludes k (strL "type") then
    some (toPascalCase baseSnake)
  else if jsIncludes k (strL "constant") then
    let pascal := toPascalCase baseSnake
    some (if pascal = [] then [107] else 107 :: pascal)
  else if jsIncludes k (strL "function") || jsIncludes k (strL "method") then
    some (toPascalCase baseSnake)
  else if jsIncludes k (strL "variable") || jsIncludes k (strL "parameter")
      || jsIncludes k (strL "private member") || jsIncludes k (strL "protected member")
      || jsIncludes k (strL "global variable") || jsIncludes k (strL "namespace") then
    some baseSnake
  else
    none

/-- Replacement record of the fix-it YAML: FilePath, Offset, Length,
ReplacementText, exactly the fields read by previewAndApplyFixes. -/
structure Replacement where
  FilePath : JsString
  Offset : Nat
  Length : Nat
  ReplacementText : JsString
  deriving DecidableEq

/-- One diagnostic entry of the fix-it YAML; the Replacements key is
optional (the source reads d.Replacements with a nullish fallback). -/
structure TidyDiag where
  Replacements : Option (List Replacement)
  deriving DecidableEq

/-- Top level of the fix-it YAML; the Diagnostics key is optional. -/
structure TidyFix where
  Diagnostics : Option (List TidyDiag)
  deriving DecidableEq

/-- Replacement gathering of previewAndApplyFixes: a missing document or a
missing Diagnostics key yields no replacements, otherwise every diagnostic
contributes the replacements whose file path resolves (through the host
path resolver) to the target path. -/
def collectReplacements (doc : Option TidyFix) (resolve : JsString → JsString)
    (target : JsString) : List Replacement :=
  match doc with
  | none => []
  | some d =>
    match d.Diagnostics with
    | none => []
    | some ds =>
      ds.foldl (fun acc dg =>
        acc ++ (dg.Replacements.getD []).filter (fun r => resolve r.FilePath == target)) []

/-- Offset-to-position loop of posFromOffset: iterate while the index is
below both the offset and the text length, a newline unit (10) increments
the line and resets the column, any other unit increments the column. -/
def posLoop : JsString → Nat → Nat → Nat → Nat × Nat
  | _, 0, line, col => (line, col)
  | [], _ + 1, line, col => (line, col)
  | c :: rest, n + 1, line, col =>
    if c = 10 then posLoop rest n (line + 1) 0 else posLoop rest n line (col + 1)

/-- The posFromOffset function of the source. -/
def posFromOffset (text : JsString) (offset : Nat) : Nat × Nat :=
  posLoop text offset 0 0

/-- Specification-side scan: fold the newline/column step over a prefix of
the text (the claim words the result as a scan of min(offset, length)
units from the start). -/
def scanPos (l : JsString) : Nat × Nat :=
  l.foldl (fun p c => if c = 10 then (p.1 + 1, 0) else (p.1, p.2 + 1)) (0, 0)

/-- Insertion step of the descending-offset sort: the comparator
(a, b) => b.Offset - a.Offset of the source is a stable sort by strictly
greater offset, so an element moves left past exactly the entries whose
offset is strictly smaller. -/
def insertRep (x : Replacement) : List Replacement → List Replacement
  | [] => [x]
  | y :: ys => if x.Offset ≥ y.Offset then x :: y :: ys else y :: insertRep x ys

/-- Stable sort of the replacement batch by descending offset, the
reps.sort((a, b) => b.Offset - a.Offset) call of the source. -/
def sortReps : List Replacement → List Replacement
  | [] => []
  | x :: xs => insertRep x (sortReps xs)

/-- One computed edit: start position, end position, replacement text. -/
structure Edit where
  start : Nat × Nat
  stop : Nat × Nat
  text : JsString
  deriving DecidableEq

/-- Edit-batch construction of previewAndApplyFixes after the user
confirms: sort the replacements by descending offset, then convert each to
a range via posFromOffset and pair it with its text.  No overlap check of
any kind is performed. -/
def buildEdits (docText : JsString) (reps : List Replacement) : List Edit :=
  (sortReps reps).map (fun r =>
    { start := posFromOffset docText r.Offset
      stop := posFromOffset docText (r.Offset + r.Length)
      text := r.ReplacementText })

/-- Two replacements overlap when their byte ranges intersect. -/
def overlaps (a b : Replacement) : Prop :=
  a.Offset < b.Offset + b.Length ∧ b.Offset < a.Offset + a.Length

/-- Line splitting of the source, text.split over an optional carriage
return followed by a newline: a carriage-return/newline pair or a lone
newline ends a line; a trailing carriage return without newline stays. -/
def splitLines : JsString → List JsString
  | [] => [[]]
  | 13 :: 10 :: rest => [] :: splitLines rest
  | 10 :: rest => [] :: splitLines rest
  | c :: rest =>
    match splitLines rest with
    | [] => [[c]]
    | h :: t => (c :: h) :: t

/-- JavaScript String.prototype.trim: strip whitespace from both ends. -/
def trimWs (l : JsString) : JsString :=
  ((l.dropWhile isJsWs).reverse.dropWhile isJsWs).reverse

/-- Include-directive grammar applied to one line: optional whitespace, a
hash, optional whitespace, the word include, optional whitespace, an
opening angle bracket or double quote, then the greedy name class of
units other than closing angle bracket and quote followed by one of those
two closers (when the name class cannot take a unit the engine backtracks
one whitespace unit into the name).  Returns the delimiter unit (60 for
angle, 34 for quote) and the raw captured name. -/
def parseIncludeLine (l : JsString) : Option (Nat × JsString) :=
  let r0 := l.dropWhile isJsWs
  match r0 with
  | 35 :: r1 =>
    let r2 := r1.dropWhile isJsWs
    if (strL "include").isPrefixOf r2 then
      let r3 := r2.drop 7
      let r4 := r3.dropWhile isJsWs
      match r4 with
      | d :: r5 =>
        if d = 60 || d = 34 then
          let ws1 := r5.takeWhile isJsWs
          let r6 := r5.dropWhile isJsWs
          let run := r6.takeWhile (fun c => !(c = 62 || c = 34))
          let r7 := r6.drop run.length
          if run ≠ [] then
            match r7 with
            | c :: _ => if c = 62 || c = 34 then some (d, run) else none
            | [] => none
          else
            match r6 with
            | c :: _ =>
              if (c = 62 || c = 34) && ws1 ≠ [] then some (d, [32]) else none
            | [] => none
        else none
      | [] => none
    else none
  | _ => none

/-- Word-character class of the JS regex word-boundary assertion. -/
def isWordChar (n : Nat) : Bool :=
  (65 ≤ n && n ≤ 90) || (97 ≤ n && n ≤ 122) || (48 ≤ n && n ≤ 57) || n = 95

/-- Boundary test for an optional neighbouring unit: the position is a
word boundary when there is no neighbour or the neighbour is a non-word
unit. -/
def boundaryOk : Option Nat → Bool
  | none => true
  | some c => !isWordChar c

/-- Word-bounded literal search: scans the text for an occurrence of the
word that has a word boundary on both sides, the regex form used by every
detection pattern of the header table. -/
def wordHitFrom (pat : JsString) (prev : Option Nat) : JsString → Bool
  | [] => false
  | c :: rest =>
    (boundaryOk prev && pat.isPrefixOf (c :: rest)
      && boundaryOk ((c :: rest).drop pat.length).head?)
    || wordHitFrom pat (some c) rest

/-- Top-level word-bounded search starting at the beginning of the text. -/
def wordHit (pat : JsString) (text : JsString) : Bool :=
  wordHitFrom pat none text

/-- The REQUIRED_HEADERS table of the source, in source order; each entry
is a header name and the list of word-bounded literals its detection
patterns look for.  The table lists the header ctring twice, once for
atoi and once for atol. -/
def requiredHeaders : List (JsString × List JsString) :=
  [ (strL "iostream", [strL "std::cout", strL "std::cerr", strL "std::clog", strL "std::cin"])
  , (strL "string", [strL "std::string"])
  , (strL "vector", [strL "std::vector"])
  , (strL "array", [strL "std::array"])
  , (strL "map", [strL "std::map"])
  , (strL "unordered_map", [strL "std::unordered_map"])
  , (strL "set", [strL "std::set"])
  , (strL "unordered_set", [strL "std::unordered_set"])
  , (strL "optional", [strL "std::optional"])
  , (strL "memory", [strL "std::unique_ptr", strL "std::shared_ptr"])
  , (strL "thread", [strL "std::thread"])
  , (strL "mutex", [strL "std::mutex"])
  , (strL "ctring", [strL "std::atoi"])
  , (strL "ctring", [strL "std::atol"]) ]

/-- Existing system-include names of the text: for every line matching the
include grammar with the angle delimiter, the trimmed captured name. -/
def existingStdNames (text : JsString) : List JsString :=
  (splitLines text).filterMap (fun l =>
    match parseIncludeLine l with
    | some (60, name) => some (trimWs name)
    | _ => none)

/-- Lexicographic comparison of code-unit strings, the default string
comparator of Array.prototype.sort. -/
def lexLe : JsString → JsString → Bool
  | [], _ => true
  | _ :: _, [] => false
  | a :: as, b :: bs => if a < b then true else if b < a then false else lexLe as bs

/-- Insertion step of the stable ascending sort of header names. -/
def insertLex (x : JsString) : List JsString → List JsString
  | [] => [x]
  | y :: ys => if lexLe x y then x :: y :: ys else y :: insertLex x ys

/-- Stable ascending sort of header names, the needed.sort() call. -/
def sortLex : List JsString → List JsString
  | [] => []
  | x :: xs => insertLex x (sortLex xs)

/-- Missing-header computation of ensureStandardIncludes: walk the header
table in order, skip entries whose header is already among the existing
system includes, keep entries with at least one matching pattern, then
sort the collected names with the default lexicographic comparator. -/
def missingHeaders (text : JsString) : List JsString :=
  let ex := existingStdNames text
  let needed := requiredHeaders.foldl (fun acc e =>
    if ex.contains e.1 then acc
    else if e.2.any (fun p => wordHit p text) then acc ++ [e.1]
    else acc) []
  sortLex needed

/-- Include-scan loop of ensureStandardIncludes: one forward pass
recording the first include line, the last system include line and the
first local include line (the source uses -1 sentinels, modelled as
none). -/
def scanInc : List JsString → Nat → Option Nat × Option Nat × Option Nat →
    Option Nat × Option Nat × Option Nat
  | [], _, acc => acc
  | l :: rest, i, (fi, ls, fl) =>
    match parseIncludeLine l with
    | none => scanInc rest (i + 1) (fi, ls, fl)
    | some (k, _) =>
      scanInc rest (i + 1)
        ((if fi = none then some i else fi),
         (if k = 60 then some i else ls),
         (if k = 34 && fl = none then some i else fl))

/-- Insertion-line choice of ensureStandardIncludes: after the last system
include; else at the first local include; else at the first include; else
line zero. -/
def insertIndexCode (text : JsString) : Nat :=
  match scanInc (splitLines text) 0 (none, none, none) with
  | (fi, ls, fl) =>
    match ls with
    | some i => i + 1
    | none =>
      match fl with
      | some i => i
      | none =>
        match fi with
        | some i => i
        | none => 0

/-- Index of the first element satisfying the test, counted from zero. -/
def firstIdxP (p : α → Bool) : List α → Option Nat
  | [] => none
  | x :: xs => if p x then some 0 else (firstIdxP p xs).map (· + 1)

/-- Index of the last element satisfying the test, counted from zero. -/
def lastIdxP (p : α → Bool) : List α → Option Nat
  | [] => none
  | x :: xs =>
    match lastIdxP p xs with
    | some i => some (i + 1)
    | none => if p x then some 0 else none

/-- Test for a line that matches the include grammar with any delimiter. -/
def isIncLine (l : JsString) : Bool := (parseIncludeLine l).isSome

/-- Test for a system include line (angle-bracket delimiter). -/
def isStdLine (l : JsString) : Bool :=
  match parseIncludeLine l with
  | some (60, _) => true
  | _ => false

/-- Test for a local include line (double-quote delimiter). -/
def isLocalLine (l : JsString) : Bool :=
  match parseIncludeLine l with
  | some (34, _) => true
  | _ => false

/-- Parsed naming diagnostic of the source (type NamingDiag there). -/
structure NamingDiag where
  file : JsString
  line : Nat
  col : Nat
  symbol : JsString
  kind : JsString
  deriving DecidableEq

/-- Decimal value of a digit run. -/
def digitsToNat (l : JsString) : Nat :=
  l.foldl (fun acc d => 10 * acc + (d - 48)) 0

/-- Suffix stripping: when the suffix matches, the remainder before it. -/
def stripSuffixJs (l suf : JsString) : Option JsString :=
  if suf.isSuffixOf l then some (l.take (l.length - suf.length)) else none

/-- The bracketed check-name suffix of the outer diagnostic grammar. -/
def checkSuffix : JsString :=
  [32, 91] ++ strL "readability-identifier-naming" ++ [93]

/-- Header part of the outer diagnostic grammar after the file name: a
digit run, a colon, a digit run, a colon, mandatory whitespace and the
literal warning marker; returns line, column and the rest of the line. -/
def parseAfterFile (r : JsString) : Option (Nat × Nat × JsString) :=
  let d1 := r.takeWhile isDigitN
  if d1 = [] then none else
  match r.drop d1.length with
  | 58 :: r2 =>
    let d2 := r2.takeWhile isDigitN
    if d2 = [] then none else
    match r2.drop d2.length with
    | 58 :: r3 =>
      let ws := r3.takeWhile isJsWs
      if ws = [] then none else
      let r4 := r3.drop ws.length
      if (strL "warning: ").isPrefixOf r4 then
        some (digitsToNat d1, digitsToNat d2, r4.drop 9)
      else none
    | _ => none
  | _ => none

/-- Lazy file-name search of the outer grammar: the shortest nonempty
prefix followed by a colon after which the header part and the anchored
check-name suffix with a nonempty message both match. -/
def findDiagSplit (pre : JsString) : JsString → Option (JsString × Nat × Nat × JsString)
  | [] => none
  | c :: rest =>
    (if c = 58 ∧ pre ≠ [] then
      match parseAfterFile rest with
      | some (ln, co, msgrest) =>
        match stripSuffixJs msgrest checkSuffix with
        | some msg => if msg ≠ [] then some (pre, ln, co, msg) else none
        | none => none
      | none => none
    else none).orElse (fun _ => findDiagSplit (pre ++ [c]) rest)

/-- Outer diagnostic grammar applied to one line. -/
def parseDiagLine (l : JsString) : Option (JsString × Nat × Nat × JsString) :=
  findDiagSplit [] l

/-- The three lead-in phrases of the naming sub-grammar, lowercase. -/
def leadPhrases : List JsString :=
  [strL "invalid case style for", strL "wrong case for",
   strL "not following naming convention for"]

/-- Case-insensitive prefix test against a lowercase pattern. -/
def startsWithCI : JsString → JsString → Bool
  | [], _ => true
  | _ :: _, [] => false
  | p :: ps, c :: cs => lowerN c = p && startsWithCI ps cs

/-- Length of the lead-in phrase matching at the current position. -/
def leadLenAt (l : JsString) : Option Nat :=
  (leadPhrases.find? (fun p => startsWithCI p l)).map List.length

/-- Splitting at the first single-quote unit (39): the part before it and
the part after it. -/
def splitAtQuote : JsString → Option (JsString × JsString)
  | [] => none
  | c :: rest =>
    if c = 39 then some ([], rest)
    else (splitAtQuote rest).map (fun pr => (c :: pr.1, pr.2))

/-- Kind class of the sub-grammar, ASCII letters and the space unit. -/
def isKindChar (n : Nat) : Bool :=
  (65 ≤ n && n ≤ 90) || (97 ≤ n && n ≤ 122) || n = 32

/-- Region check between the lead-in phrase and the opening quote: the
region must decompose as mandatory whitespace, a nonempty run of the kind
class, and mandatory whitespace; the value returned is the captured kind
after the trim call of the source (independent of how the greedy engine
distributes boundary spaces).  A region of whitespace only still matches
when an interior space can serve as the kind. -/
def kindFromRegion (R : JsString) : Option JsString :=
  if R.length < 3 then none else
  match R.head? with
  | none => none
  | some c0 =>
    if !isJsWs c0 then none else
    let core := trimWs R
    if core = [] then
      if ((R.drop 1).take (R.length - 2)).contains 32 then some [] else none
    else
      match R.getLast? with
      | none => none
      | some cl =>
        if isJsWs cl && core.all isKindChar then some core else none

/-- Sub-grammar attempt anchored at the current position: a lead-in
phrase, the kind region up to the first quote, then a nonempty symbol up
to a closing quote. -/
def subMatchAt (l : JsString) : Option (JsString × JsString) :=
  match leadLenAt l with
  | none => none
  | some n =>
    match splitAtQuote (l.drop n) with
    | none => none
    | some (region, rest) =>
      match kindFromRegion region with
      | none => none
      | some kind =>
        let sym := rest.takeWhile (fun c => !(c = 39))
        if sym ≠ [] && (rest.drop sym.length).head? = some 39 then
          some (kind, sym)
        else none

/-- Unanchored sub-grammar search: the engine tries each position from
the left and returns the first full match. -/
def subMatch : JsString → Option (JsString × JsString)
  | [] => none
  | c :: rest =>
    match subMatchAt (c :: rest) with
    | some r => some r
    | none => subMatch rest

/-- The parseNamingDiagnostics function of the source: every line
matching the outer grammar yields a NamingDiag; when the sub-grammar
matches the message it supplies kind and symbol, otherwise the diagnostic
is kept with kind identifier and an empty symbol. -/
def parseNamingDiagnostics (tidyOutput : JsString) : List NamingDiag :=
  (splitLines tidyOutput).filterMap (fun l =>
    match parseDiagLine l with
    | none => none
    | some (f, ln, co, msg) =>
      match subMatch msg with
      | some (kind, sym) =>
        some { file := f, line := ln, col := co, symbol := sym, kind := kind }
      | none =>
        some { file := f, line := ln, col := co, symbol := [], kind := strL "identifier" })

/-- Comparator of the bottom-up pass: descending line, then descending
column; equal positions keep input order under the stable sort. -/
def diagGe (a b : NamingDiag) : Bool :=
  a.line > b.line || (a.line = b.line && a.col ≥ b.col)

/-- Stable insertion for the diagnostic sort. -/
def insD (x : NamingDiag) : List NamingDiag → List NamingDiag
  | [] => [x]
  | y :: ys => if diagGe x y then x :: y :: ys else y :: insD x ys

/-- Stable sort of the diagnostics by descending position. -/
def sortD : List NamingDiag → List NamingDiag
  | [] => []
  | x :: xs => insD x (sortD xs)

/-- Deduplication key of the rename loop, kind ++ double colon ++ symbol. -/
def diagKey (d : NamingDiag) : JsString :=
  d.kind ++ [58, 58] ++ d.symbol

/-- Selection loop of fixCurrentFileGoogleStyle: walk the sorted
diagnostics, skip any with an empty symbol, skip any whose key is already
in the seen set, and otherwise record the key and keep the diagnostic as
a rename candidate (the kept diagnostics are exactly those for which the
loop proceeds toward a rename attempt). -/
def candAux (seen : List JsString) : List NamingDiag → List NamingDiag
  | [] => []
  | d :: rest =>
    if d.symbol = [] then candAux seen rest
    else if seen.contains (diagKey d) then candAux seen rest
    else d :: candAux (diagKey d :: seen) rest

/-- Rename candidates of one batch: the sorted diagnostics filtered by
the empty-symbol and seen-set checks. -/
def renameCandidates (ds : List NamingDiag) : List NamingDiag :=
  candAux [] (sortD ds)

/-- Adjacent-double-underscore test used to state the idempotence
invariants of the snake-case pipeline. -/
def hasDD : JsString → Bool
  | a :: b :: rest => (a = 95 && b = 95) || hasDD (b :: rest)
  | _ => false

/-- Option fallback, the shape of the -1 sentinel updates of the include
scan. -/
def orO (a b : Option Nat) : Option Nat :=
  match a with
  | some x => some x
  | none => b

theorem lowerN_not_upper (n : Nat) : isUpperN (lowerN n) = false := by
  simp only [isUpperN, lowerN]
  split <;> simp <;> omega

theorem lowerN_id_of_not_upper (n : Nat) (h : isUpperN n = false) : lowerN n = n := by
  simp only [isUpperN, Bool.and_eq_false_iff, decide_eq_false_iff_not] at h
  simp only [lowerN]
  split <;> omega

theorem ins1_id (l : JsString) (h : ∀ n ∈ l, isUpperN n = false) : ins1 l = l := by
  induction l using ins1.induct with
  | case1 a b rest hg ih =>
    exfalso
    have hb := h b (by simp)
    simp [Bool.and_eq_true] at hg
    simp [hg.2] at hb
  | case2 a b rest hg ih =>
    have hh : ∀ n ∈ b :: rest, isUpperN n = false := fun n hn =>
      h n (List.mem_cons_of_mem a hn)
    simp only [ins1]
    rw [if_neg hg, ih hh]
  | case3 l h2 =>
    cases l with
    | nil => rfl
    | cons a t =>
      cases t with
      | nil => rfl
      | cons b r => exact absurd rfl (h2 a b r)

theorem ins2_id (l : JsString) (h : ∀ n ∈ l, isUpperN n = false) : ins2 l = l := by
  induction l using ins2.induct with
  | case1 a b c rest hg ih =>
    exfalso
    have hb := h b (by simp)
    simp [Bool.and_eq_true] at hg
    simp [hg.1.2] at hb
  | case2 a b c rest hg ih =>
    have hh : ∀ n ∈ b :: c :: rest, isUpperN n = false := fun n hn =>
      h n (List.mem_cons_of_mem a hn)
    simp only [ins2]
    rw [if_neg hg, ih hh]
  | case3 l h2 =>
    cases l with
    | nil => rfl
    | cons a t =>
      cases t with
      | nil => rfl
      | cons b r =>
        cases r with
        | nil => rfl
        | cons c r2 => exact absurd rfl (h2 a b c r2)

theorem collapseWsAux_no_wsh (l : JsString) :
    ∀ b n, n ∈ collapseWsAux b l → isWsH n = false := by
  induction l with
  | nil => intro b n hn; simp [collapseWsAux] at hn
  | cons c rest ih =>
    intro b n hn
    simp only [collapseWsAux] at hn
    by_cases hc : isWsH c = true
    · rw [if_pos hc] at hn
      cases b with
      | true => exact ih true n (by simpa using hn)
      | false =>
        rcases List.mem_cons.mp (by simpa using hn) with h95 | hmem
        · subst h95; decide
        · exact ih true n hmem
    · rw [if_neg hc] at hn
      rcases List.mem_cons.mp hn with rfl | hmem
      · simpa using hc
      · exact ih false n hmem

theorem collapseWs_no_wsh (l : JsString) : ∀ n ∈ collapseWs l, isWsH n = false :=
  fun n hn => collapseWsAux_no_wsh l false n hn

theorem collapseWsAux_id (b : Bool) (l : JsString) (h : ∀ n ∈ l, isWsH n = false) :
    collapseWsAux b l = l := by
  induction l generalizing b with
  | nil => rfl
  | cons c rest ih =>
    have hc : ¬ isWsH c = true := by simp [h c (by simp)]
    simp only [collapseWsAux, if_neg hc]
    rw [ih false (fun n hn => h n (List.mem_cons_of_mem c hn))]

theorem collapseWs_id (l : JsString) (h : ∀ n ∈ l, isWsH n = false) : collapseWs l = l :=
  collapseWsAux_id false l h

theorem collapseUndAux_subset (l : JsString) :
    ∀ b n, n ∈ collapseUndAux b l → n = 95 ∨ n ∈ l := by
  induction l with
  | nil => intro b n hn; simp [collapseUndAux] at hn
  | cons c rest ih =>
    intro b n hn
    simp only [collapseUndAux] at hn
    by_cases hc : c = 95
    · rw [if_pos hc] at hn
      cases b with
      | true =>
        rcases ih true n (by simpa using hn) with h95 | hmem
        · exact Or.inl h95
        · exact Or.inr (List.mem_cons_of_mem c hmem)
      | false =>
        rcases List.mem_cons.mp (by simpa using hn) with h95 | hmem
        · exact Or.inl h95
        · rcases ih true n hmem with h95 | hmem2
          · exact Or.inl h95
          · exact Or.inr (List.mem_cons_of_mem c hmem2)
    · rw [if_neg hc] at hn
      rcases List.mem_cons.mp hn with rfl | hmem
      · exact Or.inr (by simp)
      · rcases ih false n hmem with h95 | hmem2
        · exact Or.inl h95
        · exact Or.inr (List.mem_cons_of_mem c hmem2)

theorem collapseUnd_subset (l : JsString) : ∀ n ∈ collapseUnd l, n = 95 ∨ n ∈ l :=
  fun n hn => collapseUndAux_subset l false n hn

theorem collapseUndAux_true_head (l : JsString) (x : Nat) (xs : List Nat)
    (heq : collapseUndAux true l = x :: xs) : x ≠ 95 := by
  induction l with
  | nil => simp [collapseUndAux] at heq
  | cons c rest ih =>
    by_cases hc : c = 95
    · refine ih ?_
      simpa only [collapseUndAux, if_pos hc, if_pos rfl] using heq
    · simp only [collapseUndAux, if_neg hc] at heq
      injection heq with h1 h2
      rw [← h1]
      exact hc

theorem hasDD_tail (a : Nat) (t : JsString) (h : hasDD (a :: t) = false) :
    hasDD t = false := by
  cases t with
  | nil => rfl
  | cons b r =>
    simp only [hasDD, Bool.or_eq_false_iff] at h
    exact h.2

theorem collapseUndAux_no_dd (l : JsString) : ∀ b, hasDD (collapseUndAux b l) = false := by
  induction l with
  | nil => intro b; rfl
  | cons c rest ih =>
    intro b
    by_cases hc : c = 95
    · cases b with
      | true =>
        simp only [collapseUndAux, if_pos hc, if_pos rfl]
        exact ih true
      | false =>
        simp only [collapseUndAux, if_pos hc, Bool.false_eq_true, if_false]
        cases hcu : collapseUndAux true rest with
        | nil => rfl
        | cons x xs =>
          simp only [hasDD]
          have hdd := ih true
          rw [hcu] at hdd
          have hx : x ≠ 95 := collapseUndAux_true_head rest x xs hcu
          simp [hdd, hx]
    · simp only [collapseUndAux, if_neg hc]
      cases hcu : collapseUndAux false rest with
      | nil => rfl
      | cons x xs =>
        simp only [hasDD]
        have hdd := ih false
        rw [hcu] at hdd
        simp [hdd, hc]

theorem collapseUnd_no_dd (l : JsString) : hasDD (collapseUnd l) = false :=
  collapseUndAux_no_dd l false

theorem collapseUnd_id (l : JsString) (h : hasDD l = false) : collapseUnd l = l := by
  unfold collapseUnd
  induction l with
  | nil => rfl
  | cons c rest ih =>
    by_cases hc : c = 95
    · subst hc
      simp only [collapseUndAux, if_pos rfl, Bool.false_eq_true, if_false]
      cases rest with
      | nil => rfl
      | cons d ds =>
        have hd : ¬ d = 95 := by
          simp only [hasDD, Bool.or_eq_false_iff, Bool.and_eq_false_iff] at h
          rcases h.1 with h1 | h1
          · simp at h1
          · simpa using h1
        have ht : collapseUndAux true (d :: ds) = collapseUndAux false (d :: ds) := by
          simp [collapseUndAux, hd]
        rw [ht, ih (hasDD_tail _ _ h)]
        simp
    · simp only [collapseUndAux, if_neg hc]
      rw [ih (hasDD_tail _ _ h)]

theorem map_lowerN_id (l : JsString) (h : ∀ n ∈ l, isUpperN n = false) :
    l.map lowerN = l := by
  induction l with
  | nil => rfl
  | cons c rest ih =>
    simp only [List.map_cons]
    rw [lowerN_id_of_not_upper c (h c (by simp)),
      ih (fun n hn => h n (List.mem_cons_of_mem c hn))]

theorem lowerN_not_wsh (n : Nat) (h : isWsH n = false) : isWsH (lowerN n) = false := by
  simp only [isWsH, isJsWs, lowerN] at *
  split
  · simp; omega
  · exact h

theorem hasDD_map_lowerN (l : JsString) (h : hasDD l = false) :
    hasDD (l.map lowerN) = false := by
  induction l with
  | nil => rfl
  | cons a t ih =>
    cases t with
    | nil => rfl
    | cons b r =>
      simp only [List.map_cons, hasDD, Bool.or_eq_false_iff, Bool.and_eq_false_iff] at h ⊢
      constructor
      · rcases h.1 with h1 | h1
        · left
          simp only [decide_eq_false_iff_not, lowerN] at h1 ⊢
          split <;> omega
        · right
          simp only [decide_eq_false_iff_not, lowerN] at h1 ⊢
          split <;> omega
      · have := ih h.2
        simpa using this

/-- Claim C10: toLowerSnake is idempotent, its output containing no
uppercase letters, no whitespace or hyphens and no doubled underscores, so
no rewrite of a second application fires. -/
theorem C10_toLowerSnake_idempotent (s : JsString) :
    toLowerSnake (toLowerSnake s) = toLowerSnake s := by
  set t := toLowerSnake s with ht
  have hup : ∀ n ∈ t, isUpperN n = false := by
    intro n hn
    rw [ht] at hn
    simp only [toLowerSnake, List.mem_map] at hn
    obtain ⟨m, _, rfl⟩ := hn
    exact lowerN_not_upper m
  have hwsh : ∀ n ∈ t, isWsH n = false := by
    intro n hn
    rw [ht] at hn
    simp only [toLowerSnake, List.mem_map] at hn
    obtain ⟨m, hm, rfl⟩ := hn
    rcases collapseUnd_subset _ m hm with h95 | hmem
    · subst h95; decide
    · exact lowerN_not_wsh m (collapseWs_no_wsh _ m hmem)
  have hdd : hasDD t = false := by
    rw [ht]
    simp only [toLowerSnake]
    exact hasDD_map_lowerN _ (collapseUnd_no_dd _)
  show toLowerSnake t = t
  simp only [toLowerSnake]
  rw [ins1_id t hup, ins2_id t hup, collapseWs_id t hwsh, collapseUnd_id t hdd,
    map_lowerN_id t hup]

theorem upperN_not_sep (n : Nat) (h : isSep n = false) : isSep (upperN n) = false := by
  simp only [isSep, isWsH, isJsWs, upperN] at *
  split
  · simp; omega
  · exact h

theorem lowerN_not_sep (n : Nat) (h : isSep n = false) : isSep (lowerN n) = false := by
  simp only [isSep, isWsH, isJsWs, lowerN] at *
  split
  · simp; omega
  · exact h

theorem splitSegsAux_sep_free (l : JsString) :
    ∀ cur, (∀ c ∈ cur, isSep c = false) →
      ∀ seg ∈ splitSegsAux cur l, ∀ c ∈ seg, isSep c = false := by
  induction l with
  | nil =>
    intro cur hcur seg hseg
    simp only [splitSegsAux] at hseg
    split at hseg
    · simp at hseg
    · simp only [List.mem_singleton] at hseg
      subst hseg
      exact hcur
  | cons c rest ih =>
    intro cur hcur seg hseg
    simp only [splitSegsAux] at hseg
    by_cases hc : isSep c = true
    · rw [if_pos hc] at hseg
      split at hseg
      · exact ih [] (by simp) seg hseg
      · rcases List.mem_cons.mp hseg with rfl | hmem
        · exact hcur
        · exact ih [] (by simp) seg hmem
    · rw [if_neg hc] at hseg
      refine ih (cur ++ [c]) ?_ seg hseg
      intro d hd
      rcases List.mem_append.mp hd with h1 | h1
      · exact hcur d h1
      · simp only [List.mem_singleton] at h1
        subst h1
        simpa using hc

theorem splitSegs_sep_free (l : JsString) :
    ∀ seg ∈ splitSegs l, ∀ c ∈ seg, isSep c = false :=
  splitSegsAux_sep_free l [] (by simp)

theorem splitSegsAux_all_nonsep (l : JsString) (h : ∀ c ∈ l, isSep c = false) :
    ∀ cur, splitSegsAux cur l = if cur ++ l = [] then [] else [cur ++ l] := by
  induction l with
  | nil => intro cur; simp [splitSegsAux]
  | cons c rest ih =>
    intro cur
    have hc : ¬ isSep c = true := by simp [h c (by simp)]
    simp only [splitSegsAux, if_neg hc]
    rw [ih (fun d hd => h d (List.mem_cons_of_mem c hd)) (cur ++ [c])]
    simp

theorem splitSegs_of_sep_free (l : JsString) (hne : l ≠ [])
    (h : ∀ c ∈ l, isSep c = false) : splitSegs l = [l] := by
  unfold splitSegs
  rw [splitSegsAux_all_nonsep l h []]
  simp [hne]

theorem toPascalCase_sep_free (s : JsString) :
    ∀ c ∈ toPascalCase s, isSep c = false := by
  intro c hc
  simp only [toPascalCase, List.mem_flatten, List.mem_map] at hc
  obtain ⟨w, ⟨seg, hseg, rfl⟩, hcw⟩ := hc
  have hsegfree := splitSegs_sep_free s seg hseg
  cases seg with
  | nil => simp [capWord] at hcw
  | cons a t =>
    simp only [capWord, List.mem_cons, List.mem_map] at hcw
    rcases hcw with rfl | ⟨d, hd, rfl⟩
    · exact upperN_not_sep a (hsegfree a (by simp))
    · exact lowerN_not_sep d (hsegfree d (List.mem_cons_of_mem a hd))

/-- Claim C3 counterexample: applying toPascalCase twice to my_type gives
Mytype, not the MyType of a single application. -/
theorem C3_counterexample :
    toPascalCase (toPascalCase (strL "my_type")) ≠ toPascalCase (strL "my_type") := by
  decide

/-- Claim C3 amended: toPascalCase is not idempotent; a second application
only capitalizes the first unit and lowercases the rest of the first
application's result (the capWord step of the source), so the two agree
exactly when that result has no uppercase letter beyond its first unit. -/
theorem C3_amended (s : JsString) :
    toPascalCase (toPascalCase s) = capWord (toPascalCase s) := by
  cases hp : toPascalCase s with
  | nil => simp [toPascalCase, splitSegs, splitSegsAux, capWord]
  | cons c rest =>
    have hfree : ∀ d ∈ toPascalCase s, isSep d = false := toPascalCase_sep_free s
    rw [hp] at hfree
    have hsplit := splitSegs_of_sep_free (c :: rest) (by simp) hfree
    simp only [toPascalCase, hsplit, List.map_cons, List.map_nil, List.flatten_cons,
      List.flatten_nil, List.append_nil]

theorem insertRep_perm (x : Replacement) (l : List Replacement) :
    (insertRep x l).Perm (x :: l) := by
  induction l with
  | nil => simp [insertRep]
  | cons y ys ih =>
    simp only [insertRep]
    split
    · exact List.Perm.refl _
    · exact ((ih.cons y).trans (List.Perm.swap x y ys))

theorem sortReps_perm (l : List Replacement) : (sortReps l).Perm l := by
  induction l with
  | nil => simp [sortReps]
  | cons x xs ih => exact (insertRep_perm x (sortReps xs)).trans (ih.cons x)

theorem insertRep_pairwise (x : Replacement) (l : List Replacement)
    (h : l.Pairwise (fun a b => b.Offset ≤ a.Offset)) :
    (insertRep x l).Pairwise (fun a b => b.Offset ≤ a.Offset) := by
  induction l with
  | nil => simp [insertRep]
  | cons y ys ih =>
    simp only [insertRep]
    rw [List.pairwise_cons] at h
    split
    · rename_i hge
      rw [List.pairwise_cons]
      refine ⟨?_, List.pairwise_cons.mpr h⟩
      intro z hz
      rcases List.mem_cons.mp hz with rfl | hmem
      · omega
      · have := h.1 z hmem
        omega
    · rename_i hlt
      rw [List.pairwise_cons]
      constructor
      · intro z hz
        rcases List.mem_cons.mp ((insertRep_perm x ys).mem_iff.mp hz) with heq | hmem
        · subst heq; omega
        · exact h.1 z hmem
      · exact ih h.2

theorem sortReps_pairwise (l : List Replacement) :
    (sortReps l).Pairwise (fun a b => b.Offset ≤ a.Offset) := by
  induction l with
  | nil => simp [sortReps]
  | cons x xs ih => exact insertRep_pairwise x (sortReps xs) ih

theorem filter_insertRep_pos (x : Replacement) (l : List Replacement) (k : Nat)
    (hx : x.Offset = k) :
    (insertRep x l).filter (fun r => r.Offset == k) =
      x :: l.filter (fun r => r.Offset == k) := by
  induction l with
  | nil => simp [insertRep, List.filter_cons, hx]
  | cons y ys ih =>
    simp only [insertRep]
    split
    · simp [List.filter_cons, hx]
    · rename_i hlt
      have hy : ¬ (y.Offset == k) = true := by
        simp only [beq_iff_eq]
        omega
      simp only [List.filter_cons, if_neg hy, ih]

theorem filter_insertRep_neg (x : Replacement) (l : List Replacement) (k : Nat)
    (hx : ¬ x.Offset = k) :
    (insertRep x l).filter (fun r => r.Offset == k) =
      l.filter (fun r => r.Offset == k) := by
  induction l with
  | nil => simp [insertRep, List.filter_cons, hx]
  | cons y ys ih =>
    simp only [insertRep]
    split
    · simp only [List.filter_cons]
      rw [if_neg (by simp [hx])]
    · simp only [List.filter_cons, ih]

theorem sortReps_filter (l : List Replacement) (k : Nat) :
    (sortReps l).filter (fun r => r.Offset == k) =
      l.filter (fun r => r.Offset == k) := by
  induction l with
  | nil => rfl
  | cons x xs ih =>
    simp only [sortReps]
    by_cases hx : x.Offset = k
    · rw [filter_insertRep_pos x (sortReps xs) k hx, ih, List.filter_cons,
        if_pos (by simp [hx])]
    · rw [filter_insertRep_neg x (sortReps xs) k hx, ih, List.filter_cons,
        if_neg (by simp [hx])]

/-- Claim C2 counterexample: two replacements with the same offset and
lengths one and two keep their input order under the source's sort, the
shorter first, instead of the greater length coming first. -/
theorem C2_counterexample :
    sortReps [⟨strL "f", 5, 1, strL "A"⟩, ⟨strL "f", 5, 2, strL "B"⟩] =
      [⟨strL "f", 5, 1, strL "A"⟩, ⟨strL "f", 5, 2, strL "B"⟩] := by
  decide

/-- Claim C2 amended: the sort orders by non-increasing offset only; it is
a stable sort with no length tie-break, so replacements sharing an offset
keep their input order (stated by the filter clause) and the result is a
permutation of the input, deterministic for every input list. -/
theorem C2_amended (reps : List Replacement) :
    (sortReps reps).Pairwise (fun a b => b.Offset ≤ a.Offset)
    ∧ (sortReps reps).Perm reps
    ∧ ∀ k, (sortReps reps).filter (fun r => r.Offset == k) =
        reps.filter (fun r => r.Offset == k) :=
  ⟨sortReps_pairwise reps, sortReps_perm reps, fun k => sortReps_filter reps k⟩

/-- Claim C1 counterexample: a batch of two overlapping replacements is
not rejected; previewAndApplyFixes converts both into edits of the batch
(the batch has both entries, no error path exists). -/
theorem C1_counterexample :
    overlaps ⟨strL "f.cpp", 0, 3, strL "X"⟩ ⟨strL "f.cpp", 2, 3, strL "Y"⟩
    ∧ (buildEdits (strL "abcdef")
        [⟨strL "f.cpp", 0, 3, strL "X"⟩, ⟨strL "f.cpp", 2, 3, strL "Y"⟩]).length = 2 := by
  constructor
  · constructor <;> decide
  · decide

/-- Claim C1 amended: no overlap detection exists; the edit batch always
contains exactly one edit per replacement, overlapping or not, and is
handed to the host edit mechanism silently. -/
theorem C1_amended (docText : JsString) (reps : List Replacement) :
    (buildEdits docText reps).length = reps.length := by
  simp only [buildEdits, List.length_map]
  exact (sortReps_perm reps).length_eq

theorem posLoop_eq_foldl (text : JsString) :
    ∀ (n line col : Nat),
      posLoop text n line col =
        (text.take n).foldl
          (fun p c => if c = 10 then (p.1 + 1, 0) else (p.1, p.2 + 1)) (line, col) := by
  induction text with
  | nil => intro n line col; cases n <;> simp [posLoop]
  | cons c rest ih =>
    intro n line col
    cases n with
    | zero => simp [posLoop]
    | succ m =>
      simp only [posLoop, List.take_succ_cons, List.foldl_cons]
      by_cases hc : c = 10
      · rw [if_pos hc, if_pos hc, ih]
      · rw [if_neg hc, if_neg hc, ih]

/-- Claim C6: posFromOffset scans min(offset, length) units from the
start of the text, incrementing the line and resetting the column at each
newline and incrementing the column otherwise; offsets beyond the text
length are clamped, and the three positions of the specification example
hold. -/
theorem C6_posFromOffset :
    (∀ text off, posFromOffset text off = scanPos (text.take off))
    ∧ (∀ text off, posFromOffset text off = posFromOffset text (min off text.length))
    ∧ posFromOffset (strL "ab" ++ [10] ++ strL "cd") 0 = (0, 0)
    ∧ posFromOffset (strL "ab" ++ [10] ++ strL "cd") 3 = (1, 0)
    ∧ posFromOffset (strL "ab" ++ [10] ++ strL "cd") 5 = (1, 2) := by
  refine ⟨?_, ?_, by decide, by decide, by decide⟩
  · intro text off
    rw [posFromOffset, posLoop_eq_foldl, scanPos]
  · intro text off
    rw [posFromOffset, posLoop_eq_foldl, posFromOffset, posLoop_eq_foldl]
    congr 1
    rcases Nat.le_total off text.length with hle | hle
    · rw [Nat.min_eq_left hle]
    · rw [Nat.min_eq_right hle, List.take_of_length_le hle, List.take_length]

theorem foldl_append_flatMap {α β : Type} (f : α → List β) (l : List α) :
    ∀ acc : List β, l.foldl (fun a x => a ++ f x) acc = acc ++ l.flatMap f := by
  induction l with
  | nil => intro acc; simp
  | cons x xs ih =>
    intro acc
    simp only [List.foldl_cons, List.flatMap_cons, ih, List.append_assoc]

theorem filter_flatMap_comm {α β : Type} (l : List α) (f : α → List β) (p : β → Bool) :
    (l.flatMap f).filter p = l.flatMap (fun x => (f x).filter p) := by
  induction l with
  | nil => rfl
  | cons x xs ih =>
    simp only [List.flatMap_cons, List.filter_append, ih]

/-- Claim C9: the replacement loader yields no replacements when the
sidecar record is unparsable or lacks the Diagnostics key, and otherwise
yields exactly the flattened replacement lists of all diagnostics
filtered to the entries whose file path resolves to the target path. -/
theorem C9_collectReplacements :
    (∀ resolve target, collectReplacements none resolve target = [])
    ∧ (∀ resolve target, collectReplacements (some ⟨none⟩) resolve target = [])
    ∧ (∀ resolve target ds,
        collectReplacements (some ⟨some ds⟩) resolve target =
          (ds.flatMap (fun dg => dg.Replacements.getD [])).filter
            (fun r => resolve r.FilePath == target)) := by
  refine ⟨fun _ _ => rfl, fun _ _ => rfl, ?_⟩
  intro resolve target ds
  simp only [collectReplacements]
  rw [filter_flatMap_comm]
  have := foldl_append_flatMap
    (fun dg : TidyDiag => (dg.Replacements.getD []).filter (fun r => resolve r.FilePath == target)) ds []
  simpa using this

/-- Claim C4: the missing-header list is not always duplicate-free as the
claim states; the header table lists ctring twice (once for atoi, once
for atol), so a file using both functions with no includes yields the
header twice, while the positive vector examples of the claim do hold. -/
theorem C4_duplicate_header :
    missingHeaders (strL "std::atoi(a); std::atol(b);") = [strL "ctring", strL "ctring"]
    ∧ missingHeaders (strL "std::vector<int> v;") = [strL "vector"]
    ∧ missingHeaders (strL "#include <vector>" ++ [10] ++ strL "std::vector<int> v;") = [] := by
  refine ⟨by decide, by decide, by decide⟩

theorem jsIncludes_exists (hay needle : JsString) :
    jsIncludes hay needle = true ↔ ∃ i, needle.isPrefixOf (hay.drop i) = true := by
  induction hay with
  | nil =>
    simp only [jsIncludes, List.isEmpty_iff, List.drop_nil]
    constructor
    · intro h
      exact ⟨0, by simp [h, List.isPrefixOf]⟩
    · rintro ⟨i, hi⟩
      cases needle with
      | nil => rfl
      | cons a t => simp [List.isPrefixOf] at hi
  | cons c rest ih =>
    simp only [jsIncludes, Bool.or_eq_true, ih]
    constructor
    · rintro (h | ⟨i, hi⟩)
      · exact ⟨0, by simpa using h⟩
      · exact ⟨i + 1, by simpa using hi⟩
    · rintro ⟨i, hi⟩
      cases i with
      | zero => exact Or.inl (by simpa using hi)
      | succ j => exact Or.inr ⟨j, by simpa using hi⟩

theorem jsIncludes_mono (k pre n : JsString) (h : jsIncludes k (pre ++ n) = true) :
    jsIncludes k n = true := by
  rw [jsIncludes_exists] at h ⊢
  obtain ⟨i, hi⟩ := h
  rw [List.isPrefixOf_iff_prefix] at hi
  obtain ⟨t, ht⟩ := hi
  refine ⟨i + pre.length, ?_⟩
  rw [List.isPrefixOf_iff_prefix]
  have hki : k.drop i = pre ++ (n ++ t) := by
    rw [← ht]
    simp [List.append_assoc]
  have h2 : (k.drop i).drop pre.length = n ++ t := by
    rw [hki, List.drop_left]
  rw [List.drop_drop] at h2
  exact h2 ▸ List.prefix_append n t

/-- Claim C7: inferTargetName realizes the ordered kind-substring policy
of the specification (proved by equality with a policy function written
from the claim's wording, the constant family being the single substring
constant), and the four example evaluations of the claim hold. -/
theorem C7_inferTargetName :
    (∀ kind current, inferTargetName kind current = inferTargetNameSpec kind current)
    ∧ inferTargetName (strL "struct") (strL "my_type") = some (strL "MyType")
    ∧ inferTargetName (strL "enum constant") (strL "max_size") = some (strL "kMaxSize")
    ∧ inferTargetName (strL "variable") (strL "ValueCount") = some (strL "value_count")
    ∧ inferTargetName (strL "unknown_kind") (strL "x") = none := by
  refine ⟨?_, by decide, by decide, by decide, by decide⟩
  intro kind current
  simp only [inferTargetName, inferTargetNameSpec]
  by_cases h2 : jsIncludes (kind.map lowerN) (strL "constant") = true
  · simp only [h2, Bool.or_true]
    by_cases h1 : (jsIncludes (kind.map lowerN) (strL "struct")
        || jsIncludes (kind.map lowerN) (strL "class")
        || jsIncludes (kind.map lowerN) (strL "type")) = true
    · simp [h1]
    · simp only [Bool.not_eq_true] at h1
      simp only [h1, Bool.false_eq_true, if_false, if_true]
      cases hp : toPascalCase (toLowerSnake current) with
      | nil => simp [hp]
      | cons a t =>
        rw [List.take_append_drop]
        simp
  · have hcf : jsIncludes (kind.map lowerN) (strL "constant") = false := by
      simpa using h2
    have he : jsIncludes (kind.map lowerN) (strL "enum constant") = false := by
      cases heq : jsIncludes (kind.map lowerN) (strL "enum constant")
      · rfl
      · exfalso
        apply h2
        have hsplit : strL "enum constant" = strL "enum " ++ strL "constant" := by decide
        exact jsIncludes_mono _ _ _ (hsplit ▸ heq)
    have hg : jsIncludes (kind.map lowerN) (strL "global constant") = false := by
      cases heq : jsIncludes (kind.map lowerN) (strL "global constant")
      · rfl
      · exfalso
        apply h2
        have hsplit : strL "global constant" = strL "global " ++ strL "constant" := by decide
        exact jsIncludes_mono _ _ _ (hsplit ▸ heq)
    have hs : jsIncludes (kind.map lowerN) (strL "static constant") = false := by
      cases heq : jsIncludes (kind.map lowerN) (strL "static constant")
      · rfl
      · exfalso
        apply h2
        have hsplit : strL "static constant" = strL "static " ++ strL "constant" := by decide
        exact jsIncludes_mono _ _ _ (hsplit ▸ heq)
    simp [he, hg, hs, hcf]

theorem parseIncludeLine_kind (l : JsString) (k : Nat) (nm : JsString)
    (h : parseIncludeLine l = some (k, nm)) : k = 60 ∨ k = 34 := by
  unfold parseIncludeLine at h
  simp only [] at h
  repeat split at h
  all_goals try simp_all
  all_goals (repeat split at h)
  all_goals simp_all

theorem scanInc_eq (lines : List JsString) :
    ∀ (i : Nat) (fi ls fl : Option Nat),
      scanInc lines i (fi, ls, fl) =
        (orO fi ((firstIdxP isIncLine lines).map (· + i)),
         orO ((lastIdxP isStdLine lines).map (· + i)) ls,
         orO fl ((firstIdxP isLocalLine lines).map (· + i))) := by
  induction lines with
  | nil =>
    intro i fi ls fl
    cases fi <;> cases ls <;> cases fl <;> simp [scanInc, firstIdxP, lastIdxP, orO]
  | cons l rest ih =>
    intro i fi ls fl
    cases hpl : parseIncludeLine l with
    | none =>
      have hinc : isIncLine l = false := by simp [isIncLine, hpl]
      have hstd : isStdLine l = false := by simp [isStdLine, hpl]
      have hloc : isLocalLine l = false := by simp [isLocalLine, hpl]
      simp only [scanInc, hpl, ih]
      cases fi <;> cases ls <;> cases fl <;>
        cases hA : firstIdxP isIncLine rest <;>
        cases hB : lastIdxP isStdLine rest <;>
        cases hC : firstIdxP isLocalLine rest <;>
        simp [hA, hB, hC, orO, firstIdxP, lastIdxP, hinc, hstd, hloc] <;>
        omega
    | some pr =>
      obtain ⟨k, nm⟩ := pr
      have hinc : isIncLine l = true := by simp [isIncLine, hpl]
      rcases parseIncludeLine_kind l k nm hpl with hk | hk
      · subst hk
        have hstd : isStdLine l = true := by simp [isStdLine, hpl]
        have hloc : isLocalLine l = false := by simp [isLocalLine, hpl]
        simp only [scanInc, hpl, ih]
        cases fi <;> cases ls <;> cases fl <;>
          cases hA : firstIdxP isIncLine rest <;>
          cases hB : lastIdxP isStdLine rest <;>
          cases hC : firstIdxP isLocalLine rest <;>
          simp [hA, hB, hC, orO, firstIdxP, lastIdxP, hinc, hstd, hloc] <;>
          omega
      · subst hk
        have hstd : isStdLine l = false := by simp [isStdLine, hpl]
        have hloc : isLocalLine l = true := by simp [isLocalLine, hpl]
        simp only [scanInc, hpl, ih]
        cases fi <;> cases ls <;> cases fl <;>
          cases hA : firstIdxP isIncLine rest <;>
          cases hB : lastIdxP isStdLine rest <;>
          cases hC : firstIdxP isLocalLine rest <;>
          simp [hA, hB, hC, orO, firstIdxP, lastIdxP, hinc, hstd, hloc] <;>
          omega

/-- Claim C5: the insertion line index follows the priority order of the
claim: one past the last system include line when one exists, else the
first local include line, else the first include line of any kind, else
line zero. -/
theorem C5_insertIndex (text : JsString) :
    insertIndexCode text =
      match lastIdxP isStdLine (splitLines text) with
      | some i => i + 1
      | none =>
        match firstIdxP isLocalLine (splitLines text) with
        | some i => i
        | none =>
          match firstIdxP isIncLine (splitLines text) with
          | some i => i
          | none => 0 := by
  unfold insertIndexCode
  rw [scanInc_eq]
  cases hB : lastIdxP isStdLine (splitLines text) <;>
  cases hC : firstIdxP isLocalLine (splitLines text) <;>
  cases hA : firstIdxP isIncLine (splitLines text) <;>
  simp [orO]

theorem candAux_mem (l : List NamingDiag) :
    ∀ (seen : List JsString) (d : NamingDiag), d ∈ candAux seen l →
      d.symbol ≠ [] ∧ seen.contains (diagKey d) = false := by
  induction l with
  | nil => intro seen d hd; simp [candAux] at hd
  | cons x rest ih =>
    intro seen d hd
    simp only [candAux] at hd
    by_cases hx : x.symbol = []
    · rw [if_pos hx] at hd
      exact ih seen d hd
    · rw [if_neg hx] at hd
      by_cases hs : seen.contains (diagKey x) = true
      · rw [if_pos hs] at hd
        exact ih seen d hd
      · rw [if_neg hs] at hd
        rcases List.mem_cons.mp hd with rfl | hmem
        · exact ⟨hx, by simpa using hs⟩
        · have hmm := ih (diagKey x :: seen) d hmem
          refine ⟨hmm.1, ?_⟩
          have h2 := hmm.2
          simp only [List.contains_cons, Bool.or_eq_false_iff] at h2
          exact h2.2

theorem candAux_pairwise (l : List NamingDiag) :
    ∀ seen : List JsString,
      (candAux seen l).Pairwise (fun a b => diagKey a ≠ diagKey b) := by
  induction l with
  | nil => intro seen; simp [candAux]
  | cons x rest ih =>
    intro seen
    simp only [candAux]
    by_cases hx : x.symbol = []
    · rw [if_pos hx]
      exact ih seen
    · rw [if_neg hx]
      by_cases hs : seen.contains (diagKey x) = true
      · rw [if_pos hs]
        exact ih seen
      · rw [if_neg hs]
        rw [List.pairwise_cons]
        refine ⟨?_, ih _⟩
        intro d hd
        have hc := (candAux_mem rest _ d hd).2
        simp only [List.contains_cons, Bool.or_eq_false_iff] at hc
        have hc1 := hc.1
        intro he
        exact (by simpa using hc1 : ¬ diagKey d = diagKey x) he.symm

/-- Claim C8: every line matching the outer diagnostic grammar whose
message misses the naming sub-grammar is retained in the parse result as
a NamingDiag with kind identifier and empty symbol; rename candidates of
a batch never have an empty symbol; and the candidates are pairwise
distinct in the (kind, symbol) pair, so a rename is attempted at most
once per pair. -/
theorem C8_naming_pipeline :
    (∀ (output l f : JsString) (ln co : Nat) (msg : JsString),
        l ∈ splitLines output →
        parseDiagLine l = some (f, ln, co, msg) →
        subMatch msg = none →
        ({ file := f, line := ln, col := co, symbol := [],
           kind := strL "identifier" } : NamingDiag) ∈ parseNamingDiagnostics output)
    ∧ (∀ ds d, d ∈ renameCandidates ds → d.symbol ≠ [])
    ∧ (∀ ds, (renameCandidates ds).Pairwise
        (fun a b => ¬(a.kind = b.kind ∧ a.symbol = b.symbol))) := by
  refine ⟨?_, ?_, ?_⟩
  · intro output l f ln co msg hl hp hs
    refine List.mem_filterMap.mpr ⟨l, hl, ?_⟩
    simp [hp, hs]
  · intro ds d hd
    exact (candAux_mem (sortD ds) [] d hd).1
  · intro ds
    refine (candAux_pairwise (sortD ds) []).imp ?_
    intro a b hne hab
    exact hne (by simp [diagKey, hab.1, hab.2])

/-- Witness for claim C8: a concrete outer-grammar line whose message has
no lead-in phrase is retained with kind identifier and empty symbol, and
a concrete diagnostic is a rename candidate of its own batch with a
nonempty symbol. -/
theorem C8_naming_pipeline_witness :
    ({ file := strL "foo.cpp", line := 3, col := 4, symbol := [],
       kind := strL "identifier" } : NamingDiag)
      ∈ parseNamingDiagnostics
          (strL "foo.cpp:3:4: warning: braces missing here [readability-identifier-naming]")
    ∧ ({ file := strL "a.cpp", line := 1, col := 1, symbol := strL "x",
         kind := strL "variable" } : NamingDiag).symbol ≠ [] :=
  ⟨C8_naming_pipeline.1
     (strL "foo.cpp:3:4: warning: braces missing here [readability-identifier-naming]")
     (strL "foo.cpp:3:4: warning: braces missing here [readability-identifier-naming]")
     (strL "foo.cpp") 3 4 (strL "braces missing here")
     (by decide) (by decide) (by decide),
   C8_naming_pipeline.2.1
     [({ file := strL "a.cpp", line := 1, col := 1, symbol := strL "x",
         kind := strL "variable" } : NamingDiag)]
     ({ file := strL "a.cpp", line := 1, col := 1, symbol := strL "x",
        kind := strL "variable" } : NamingDiag)
     (by decide)⟩
